import Mathlib

/-!
Verification of the Bernstein–Vazirani demo.

The repository's own code (oracle construction, circuit assembly, input
validation, result aggregation) is embedded from the source file; Python
strings are modelled as lists of characters and the qiskit circuit value as a
`Circuit` record.  The statevector simulation and measurement sampling are
delegated by the source to the external Aer library, so those two components
are modelled from the specification (sections 4.3 and 4.4); amplitudes of the
three-gate set stay in `ℤ · (1/√2)^scale`, so a state is an integer vector
together with a scale exponent, and the Born-rule probability of an outcome is
the exact rational `weight / 2^scale`.
-/

set_option maxHeartbeats 1000000

namespace VB

/-- A circuit operation: the closed gate set of the spec, plus the cosmetic
barrier markers that the source inserts into the assembled circuit. -/
inductive Gate where
  | pauliX (target : Nat)
  | hadamard (target : Nat)
  | cnot (control target : Nat)
  | barrier
deriving DecidableEq

/-- Shallow embedding of `create_oracle` (src lines 6-13): walk
`enumerate(reversed(secret_string))` and emit `cx i n` for every index `i`
whose character is '1'. -/
def create_oracle (secret_string : List Char) : List Gate :=
  (secret_string.reverse.enum).filterMap fun p =>
    if p.2 = '1' then some (Gate.cnot p.1 secret_string.length) else none

/-- A qiskit circuit value: register sizes, the ordered instruction list, and
the qubits measured into classical bits (qubit `i` into clbit `i`). -/
structure Circuit where
  numQubits : Nat
  numClbits : Nat
  gates : List Gate
  measured : List Nat
deriving DecidableEq

/-- Shallow embedding of `bernstein_vazirani_circuit` (src lines 16-41):
`x` then `h` on the auxiliary qubit, `h` on the data register, a barrier, the
composed oracle, a barrier, `h` on the data register again, and measurement of
the data qubits into the classical register. -/
def bernstein_vazirani_circuit (secret_string : List Char) : Circuit :=
  let n := secret_string.length
  { numQubits := n + 1
    numClbits := n
    gates := [Gate.pauliX n, Gate.hadamard n]
      ++ (List.range n).map Gate.hadamard
      ++ [Gate.barrier]
      ++ create_oracle secret_string
      ++ [Gate.barrier]
      ++ (List.range n).map Gate.hadamard
    measured := List.range n }

/-- Shallow embedding of `validate_binary_string` (src lines 53-54). -/
def validate_binary_string (s : List Char) : Bool :=
  s.all (fun c => c == '0' || c == '1') && decide (0 < s.length)

/-- Modelled from the spec: the Quantum State of section 3 for the Statevector
Engine of section 4.3, which the source delegates to the external Aer
simulator.  The real amplitude of basis index `j` is `amp j / (√2)^scale`;
every gate of the set keeps amplitudes in this dyadic form. -/
structure QState where
  amp : Nat → ℤ
  scale : Nat

/-- Basis index obtained by flipping bit `t` of `j`. -/
def flipBit (j t : Nat) : Nat := j ^^^ 2 ^ t

/-- Modelled from the spec: one gate-application step of the Statevector
Engine (section 4.3).  PauliX swaps the members of each pair differing in the
target bit; Hadamard sends the pair `(a₀, a₁)` to `((a₀+a₁)/√2, (a₀−a₁)/√2)`,
which raises the scale exponent by one; ControlledNot swaps the pair exactly
when the control bit is set; barriers are cosmetic and do nothing. -/
def applyGate (g : Gate) (ψ : QState) : QState :=
  match g with
  | Gate.pauliX t => ⟨fun j => ψ.amp (flipBit j t), ψ.scale⟩
  | Gate.hadamard t =>
      ⟨fun j => if j.testBit t then ψ.amp (flipBit j t) - ψ.amp j
                else ψ.amp j + ψ.amp (flipBit j t),
       ψ.scale + 1⟩
  | Gate.cnot c t => ⟨fun j => if j.testBit c then ψ.amp (flipBit j t) else ψ.amp j, ψ.scale⟩
  | Gate.barrier => ψ

/-- Modelled from the spec: the Statevector Engine applies the gates strictly
in circuit order. -/
def applyGates (gs : List Gate) (ψ : QState) : QState :=
  gs.foldl (fun φ g => applyGate g φ) ψ

/-- Modelled from the spec: the register starts in `|0...0⟩` — amplitude one
at the all-zero basis index, zero elsewhere. -/
def initState : QState := ⟨fun j => if j = 0 then 1 else 0, 0⟩

/-- Final state of a circuit: the initial state evolved through every gate. -/
def runCircuit (c : Circuit) : QState := applyGates c.gates initState

/-- Modelled from the spec: unnormalized Born weight of measured outcome `y`
(an `n`-bit index), marginalizing over the single unmeasured auxiliary qubit
at bit `n` (section 4.4, step 1). -/
def outcomeWeight (ψ : QState) (n y : Nat) : ℤ :=
  ψ.amp y ^ 2 + ψ.amp (y + 2 ^ n) ^ 2

/-- Modelled from the spec: the Born-rule probability of measured outcome `y`
as an exact rational. -/
def outcomeProb (ψ : QState) (n y : Nat) : ℚ :=
  (outcomeWeight ψ n y : ℚ) / 2 ^ ψ.scale

/-- Cumulative outcome distribution, used to invert a uniform random draw. -/
def cumProb (ψ : QState) (n y : Nat) : ℚ :=
  ∑ z ∈ Finset.range y, outcomeProb ψ n z

/-- Modelled from the spec: one categorical sample — the first outcome whose
cumulative probability exceeds the uniform draw `r` (section 4.4, step 2). -/
def drawOutcome (ψ : QState) (n : Nat) (r : ℚ) : Nat :=
  match (List.range (2 ^ n)).find? (fun y => decide (r < cumProb ψ n (y + 1))) with
  | some y => y
  | none => 2 ^ n - 1

/-- Modelled from the spec: draw `shots` independent samples from the outcome
distribution, the pseudo-random source being the explicit stream `seed`, and
accumulate occurrence counts per outcome. -/
def sampleCounts (ψ : QState) (n shots : Nat) (seed : Nat → ℚ) : Nat → Nat :=
  fun y => ((Finset.range shots).filter (fun t => drawOutcome ψ n (seed t) = y)).card

/-- Shallow embedding of `simulate_circuit` (src lines 44-50); the Aer
simulation it invokes is modelled from the spec as `runCircuit` followed by
`sampleCounts`, with the simulator's pseudo-random source made explicit. -/
def simulate_circuit (circuit : Circuit) (shots : Nat) (seed : Nat → ℚ) : Nat → Nat :=
  sampleCounts (runCircuit circuit) circuit.numClbits shots seed

/-- Qiskit formats a counts key most-significant-clbit first: character `t` of
the key is the measured value of qubit `n - 1 - t`. -/
def outcomeString (n y : Nat) : List Char :=
  ((List.range n).reverse).map fun i => if y.testBit i then '1' else '0'

/-- Little-endian value of a character list: the head is bit 0. -/
def idxOfBits : List Char → Nat
  | [] => 0
  | c :: rest => (if c = '1' then 1 else 0) + 2 * idxOfBits rest

/-- Basis index of the data-register state `|s⟩`: the last character of the
secret is qubit 0, so the index is the big-endian binary value of `s`. -/
def secretIndex (s : List Char) : Nat := idxOfBits s.reverse

/-- Python's `max(keys, key=val)`: the first key attaining the maximal value
(later keys replace the current best only on a strictly larger value). -/
def pythonMax (keys : List Nat) (val : Nat → Nat) : Option Nat :=
  keys.foldl (fun best y =>
    match best with
    | none => some y
    | some b => if val b < val y then some y else some b) none

/-- Result record of a run: the counts mapping and the `found_string` outcome
(`none` when no outcome was observed, where Python's `max` would raise). -/
structure RunResult where
  counts : Nat → Nat
  found? : Option Nat

/-- Shallow embedding of `run_bernstein_vazirani` (src lines 68-123), printing
elided: it builds the circuit, simulates it, and takes
`max(counts, key=counts.get)` over the observed outcomes — with no input
validation anywhere on the path.  An explicit invalid-input rejection would
surface as `Except.error`; the source has no such branch, so the embedding
always returns `Except.ok`. -/
def run_bernstein_vazirani (secret_string : List Char) (shots : Nat) (seed : Nat → ℚ) :
    Except String RunResult :=
  let circuit := bernstein_vazirani_circuit secret_string
  let counts := simulate_circuit circuit shots seed
  let keys := (List.range (2 ^ secret_string.length)).filter fun y => decide (0 < counts y)
  Except.ok { counts := counts, found? := pythonMax keys counts }

/-- Strip the cosmetic barrier markers from an instruction list. -/
def removeBarriers (gs : List Gate) : List Gate :=
  gs.filter fun g => decide (g ≠ Gate.barrier)

/-- In-range condition for a gate over `m` qubits: all indices below `m`, and
a ControlledNot has distinct control and target. -/
def gateOk (m : Nat) : Gate → Prop
  | Gate.pauliX t => t < m
  | Gate.hadamard t => t < m
  | Gate.cnot c t => c < m ∧ t < m ∧ c ≠ t
  | Gate.barrier => True

/-- Sign contributed by the auxiliary qubit (bit `n`) of basis index `j`:
the auxiliary register is held in the state `(|0⟩ − |1⟩)/√2` throughout. -/
def auxSign (j n : Nat) : ℤ := if j.testBit n then -1 else 1

/-- Bits of `j` in positions `[k, n)` are all clear. -/
def MidClear (k n j : Nat) : Prop := ∀ i, k ≤ i → i < n → j.testBit i = false

/-- Bits of `j` starting at position `k` spell the character list (head at
position `k`, '1' characters as set bits). -/
def BitsMatch : List Char → Nat → Nat → Prop
  | [], _, _ => True
  | c :: rest, k, j => j.testBit k = decide (c = '1') ∧ BitsMatch rest (k + 1) j

/-- Phase picked up from the oracle for the character list starting at qubit
`k`: one factor `-1` per position holding '1' whose bit of `j` is set. -/
def sgnFrom : List Char → Nat → Nat → ℤ
  | [], _, _ => 1
  | c :: rest, k, j =>
      (if c = '1' ∧ j.testBit k = true then (-1 : ℤ) else 1) * sgnFrom rest (k + 1) j

/-- Oracle gate list for the character list starting at control qubit `k`
(recursive companion of `create_oracle`, which enumerates from index 0). -/
def oracleAux (tgt : Nat) : Nat → List Char → List Gate
  | _, [] => []
  | k, c :: rest => (if c = '1' then [Gate.cnot k tgt] else []) ++ oracleAux tgt (k + 1) rest

/-- Total squared amplitude over the `2^m`-dimensional register. -/
def normSq (ψ : QState) (m : Nat) : ℤ :=
  ∑ j ∈ Finset.range (2 ^ m), ψ.amp j ^ 2

/-- The state has no amplitude at or beyond basis index `d`. -/
def Supported (ψ : QState) (d : Nat) : Prop := ∀ j, d ≤ j → ψ.amp j = 0

/-- State after the auxiliary preparation and the first `k` data Hadamards. -/
def stateB (n k : Nat) : QState :=
  applyGates ((List.range k).map Gate.hadamard)
    (applyGates [Gate.pauliX n, Gate.hadamard n] initState)

/-! Basic facts about bit flips and gate folding. -/

lemma testBit_flipBit (j t i : Nat) :
    (flipBit j t).testBit i = if i = t then !(j.testBit i) else j.testBit i := by
  unfold flipBit
  rw [Nat.testBit_xor, Nat.testBit_two_pow]
  by_cases h : i = t
  · subst h; simp
  · have h' : t ≠ i := fun hh => h hh.symm
    simp [h, h']

lemma flipBit_flipBit (j t : Nat) : flipBit (flipBit j t) t = j :=
  Nat.xor_cancel_right _ _

lemma flipBit_lt_of_lt {j t m : Nat} (ht : t < m) (hj : j < 2 ^ m) : flipBit j t < 2 ^ m :=
  Nat.xor_lt_two_pow hj (Nat.pow_lt_pow_right one_lt_two ht)

lemma flipBit_lt_iff {t m : Nat} (ht : t < m) (j : Nat) :
    flipBit j t < 2 ^ m ↔ j < 2 ^ m := by
  constructor
  · intro h
    have := flipBit_lt_of_lt ht h
    rwa [flipBit_flipBit] at this
  · exact flipBit_lt_of_lt ht

lemma testBit_eq_false_of_lt {j m i : Nat} (h : j < 2 ^ m) (hi : m ≤ i) :
    j.testBit i = false :=
  Nat.testBit_lt_two_pow (lt_of_lt_of_le h (Nat.pow_le_pow_right (by norm_num) hi))

lemma applyGates_nil (ψ : QState) : applyGates [] ψ = ψ := rfl

lemma applyGates_cons (g : Gate) (gs : List Gate) (ψ : QState) :
    applyGates (g :: gs) ψ = applyGates gs (applyGate g ψ) := rfl

lemma applyGates_append (l₁ l₂ : List Gate) (ψ : QState) :
    applyGates (l₁ ++ l₂) ψ = applyGates l₂ (applyGates l₁ ψ) := by
  unfold applyGates
  exact List.foldl_append _ _ _ _

lemma applyGates_barrier (ψ : QState) : applyGates [Gate.barrier] ψ = ψ := rfl

/-! Stage A: preparing the auxiliary qubit.  After `X` then `H` on qubit `n`
the state is `(|0...0,0⟩ − |0...0,1⟩)/√2`. -/

lemma stageA (n : Nat) :
    (applyGates [Gate.pauliX n, Gate.hadamard n] initState).scale = 1 ∧
    ∀ j, (applyGates [Gate.pauliX n, Gate.hadamard n] initState).amp j =
      if j = 0 then 1 else if j = 2 ^ n then -1 else 0 := by
  constructor
  · rfl
  intro j
  have hflipn : (flipBit j n = 0) ↔ j = 2 ^ n := by
    unfold flipBit
    rw [Nat.xor_eq_zero]
  simp only [applyGates, List.foldl, applyGate, initState, flipBit_flipBit j n, hflipn]
  by_cases hj0 : j = 0
  · subst hj0
    simp [Nat.zero_testBit, (Nat.two_pow_pos n).ne]
  · by_cases hj2 : j = 2 ^ n
    · subst hj2
      simp [Nat.testBit_two_pow_self, hj0]
    · cases hb : j.testBit n <;> simp [hj0, hj2, hb]

/-! Stage B: the first Hadamard layer spreads the data register into the
uniform superposition while the auxiliary sign pattern is preserved. -/

lemma stageB (n : Nat) : ∀ k, k ≤ n →
    (stateB n k).scale = k + 1 ∧
    (∀ j, j < 2 ^ (n + 1) → MidClear k n j → (stateB n k).amp j = auxSign j n) ∧
    (∀ j, ¬(j < 2 ^ (n + 1) ∧ MidClear k n j) → (stateB n k).amp j = 0) := by
  intro k
  induction k with
  | zero =>
    intro _
    obtain ⟨hs, ha⟩ := stageA n
    have h2n : (2 : Nat) ^ n < 2 ^ (n + 1) := Nat.pow_lt_pow_right one_lt_two n.lt_succ_self
    refine ⟨hs, ?_, ?_⟩
    · intro j hj hmid
      rw [show stateB n 0 = applyGates [Gate.pauliX n, Gate.hadamard n] initState from rfl,
        ha j]
      by_cases hb : j.testBit n
      · have hj2 : j = 2 ^ n := by
          apply Nat.eq_of_testBit_eq
          intro i
          rcases lt_trichotomy i n with h | h | h
          · rw [hmid i (Nat.zero_le i) h, Nat.testBit_two_pow_of_ne (by omega)]
          · subst h
            rw [hb, Nat.testBit_two_pow_self]
          · rw [testBit_eq_false_of_lt hj (by omega), Nat.testBit_two_pow_of_ne (by omega)]
        subst hj2
        rw [if_neg (Nat.two_pow_pos n).ne.symm, if_pos rfl]
        unfold auxSign
        rw [hb]
        rfl
      · have hj0 : j = 0 := by
          apply Nat.eq_of_testBit_eq
          intro i
          rw [Nat.zero_testBit]
          rcases lt_trichotomy i n with h | h | h
          · exact hmid i (Nat.zero_le i) h
          · subst h
            simpa using hb
          · exact testBit_eq_false_of_lt hj (by omega)
        subst hj0
        rw [if_pos rfl]
        unfold auxSign
        simp [Nat.zero_testBit]
    · intro j hcon
      rw [show stateB n 0 = applyGates [Gate.pauliX n, Gate.hadamard n] initState from rfl,
        ha j]
      have hnot0 : j ≠ 0 := by
        intro h
        subst h
        exact hcon ⟨Nat.two_pow_pos (n + 1), fun i _ hi =>
          Nat.zero_testBit i⟩
      have hnot2 : j ≠ 2 ^ n := by
        intro h
        subst h
        exact hcon ⟨h2n, fun i _ hi => Nat.testBit_two_pow_of_ne (by omega)⟩
      rw [if_neg hnot0, if_neg hnot2]
  | succ k ih =>
    intro hk1
    have hkn : k < n := hk1
    have hk : k ≤ n := Nat.le_of_lt hkn
    obtain ⟨ihs, ihp, ihz⟩ := ih hk
    have hstep : stateB n (k + 1) = applyGate (Gate.hadamard k) (stateB n k) := by
      unfold stateB
      rw [List.range_succ, List.map_append, applyGates_append]
      rfl
    have hsig : ∀ j, auxSign (flipBit j k) n = auxSign j n := by
      intro j
      unfold auxSign
      rw [testBit_flipBit, if_neg (by omega : ¬ n = k)]
    have hmidflip : ∀ j, j.testBit k = true → MidClear (k + 1) n j → MidClear k n (flipBit j k) := by
      intro j hx hmid i hki hin
      rw [testBit_flipBit]
      by_cases hik : i = k
      · subst hik
        rw [if_pos rfl, hx]
        rfl
      · rw [if_neg hik]
        exact hmid i (by omega) hin
    refine ⟨?_, ?_, ?_⟩
    · rw [hstep]
      show (stateB n k).scale + 1 = k + 1 + 1
      rw [ihs]
    · intro j hj hmid
      rw [hstep]
      show (if j.testBit k then (stateB n k).amp (flipBit j k) - (stateB n k).amp j
            else (stateB n k).amp j + (stateB n k).amp (flipBit j k)) = auxSign j n
      cases hx : j.testBit k
      · have hzf : (stateB n k).amp (flipBit j k) = 0 := by
          apply ihz
          rintro ⟨-, hm⟩
          have := hm k le_rfl hkn
          rw [testBit_flipBit, if_pos rfl, hx] at this
          simp at this
        have hmk : MidClear k n j := by
          intro i hki hin
          by_cases hik : i = k
          · subst hik
            exact hx
          · exact hmid i (by omega) hin
        rw [hzf, ihp j hj hmk, add_zero]
        simp
      · have hzj : (stateB n k).amp j = 0 := by
          apply ihz
          rintro ⟨-, hm⟩
          have := hm k le_rfl hkn
          rw [hx] at this
          simp at this
        have hflt : flipBit j k < 2 ^ (n + 1) := (flipBit_lt_iff (by omega) j).mpr hj
        rw [hzj, ihp (flipBit j k) hflt (hmidflip j hx hmid), hsig j, sub_zero]
        simp
    · intro j hcon
      rw [hstep]
      show (if j.testBit k then (stateB n k).amp (flipBit j k) - (stateB n k).amp j
            else (stateB n k).amp j + (stateB n k).amp (flipBit j k)) = 0
      have hzj : (stateB n k).amp j = 0 := by
        apply ihz
        rintro ⟨h1, h2⟩
        exact hcon ⟨h1, fun i hki hin => h2 i (by omega) hin⟩
      cases hx : j.testBit k
      · have hzf : (stateB n k).amp (flipBit j k) = 0 := by
          apply ihz
          rintro ⟨-, hm⟩
          have := hm k le_rfl hkn
          rw [testBit_flipBit, if_pos rfl, hx] at this
          simp at this
        rw [hzj, hzf, add_zero]
        simp
      · have hzf : (stateB n k).amp (flipBit j k) = 0 := by
          apply ihz
          rintro ⟨hf1, hf2⟩
          apply hcon
          refine ⟨(flipBit_lt_iff (by omega) j).mp hf1, ?_⟩
          intro i hki hin
          have := hf2 i (by omega) hin
          rw [testBit_flipBit, if_neg (by omega : ¬ i = k)] at this
          exact this
        rw [hzj, hzf, sub_zero]
        simp

/-! Stage C: the oracle.  With the auxiliary qubit in `(|0⟩ − |1⟩)/√2`, each
`cx i n` contributes the phase `(−1)^(bit i of the data index)` for the '1'
positions of the secret. -/

lemma sgnFrom_nil (k j : Nat) : sgnFrom [] k j = 1 := rfl

lemma sgnFrom_cons (c : Char) (rest : List Char) (k j : Nat) :
    sgnFrom (c :: rest) k j
      = (if c = '1' ∧ j.testBit k = true then (-1 : ℤ) else 1) * sgnFrom rest (k + 1) j := rfl

lemma auxSign_flipBit_ne {t n : Nat} (h : t ≠ n) (j : Nat) :
    auxSign (flipBit j t) n = auxSign j n := by
  unfold auxSign
  rw [testBit_flipBit, if_neg (show ¬ n = t from fun hh => h hh.symm)]

lemma auxSign_flipBit_self (j n : Nat) : auxSign (flipBit j n) n = -auxSign j n := by
  unfold auxSign
  rw [testBit_flipBit, if_pos rfl]
  cases j.testBit n <;> simp

lemma filterMap_enumFrom_eq_oracleAux (n : Nat) :
    ∀ (r : List Char) (k : Nat),
      (List.enumFrom k r).filterMap
          (fun p => if p.2 = '1' then some (Gate.cnot p.1 n) else none)
        = oracleAux n k r := by
  intro r
  induction r with
  | nil => intro k; rfl
  | cons c rest ih =>
    intro k
    simp only [List.enumFrom_cons, List.filterMap_cons]
    by_cases hc : c = '1'
    · simp [hc, oracleAux, ih (k + 1)]
    · simp [hc, oracleAux, ih (k + 1)]

lemma create_oracle_eq (s : List Char) :
    create_oracle s = oracleAux s.length 0 s.reverse := by
  unfold create_oracle
  rw [List.enum_eq_enumFrom]
  exact filterMap_enumFrom_eq_oracleAux s.length s.reverse 0

lemma oracleStage (n : Nat) :
    ∀ (r : List Char) (k : Nat), k + r.length ≤ n →
    ∀ (t : Nat → ℤ), (∀ j, t (flipBit j n) = t j) →
    ∀ (ψ : QState),
      (∀ j, j < 2 ^ (n + 1) → ψ.amp j = t j * auxSign j n) →
      (∀ j, ¬ j < 2 ^ (n + 1) → ψ.amp j = 0) →
      (applyGates (oracleAux n k r) ψ).scale = ψ.scale ∧
      (∀ j, j < 2 ^ (n + 1) →
        (applyGates (oracleAux n k r) ψ).amp j = sgnFrom r k j * t j * auxSign j n) ∧
      (∀ j, ¬ j < 2 ^ (n + 1) → (applyGates (oracleAux n k r) ψ).amp j = 0) := by
  intro r
  induction r with
  | nil =>
    intro k _ t _ ψ hψ hz
    refine ⟨rfl, ?_, hz⟩
    intro j hj
    show ψ.amp j = sgnFrom [] k j * t j * auxSign j n
    rw [hψ j hj, sgnFrom_nil]
    ring
  | cons c rest ih =>
    intro k hk t ht ψ hψ hz
    have hkn : k < n := by
      have := hk
      simp only [List.length_cons] at this
      omega
    have hrest : k + 1 + rest.length ≤ n := by
      have := hk
      simp only [List.length_cons] at this
      omega
    by_cases hc : c = '1'
    · have hoc : oracleAux n k (c :: rest) = Gate.cnot k n :: oracleAux n (k + 1) rest := by
        simp [oracleAux, hc]
      rw [hoc, applyGates_cons]
      have ht' : ∀ j, (fun j => (if j.testBit k then (-1 : ℤ) else 1) * t j) (flipBit j n)
          = (fun j => (if j.testBit k then (-1 : ℤ) else 1) * t j) j := by
        intro j
        simp only
        rw [testBit_flipBit, if_neg (by omega : ¬ k = n), ht]
      have h1' : ∀ j, j < 2 ^ (n + 1) →
          (applyGate (Gate.cnot k n) ψ).amp j
            = (if j.testBit k then (-1 : ℤ) else 1) * t j * auxSign j n := by
        intro j hj
        show (if j.testBit k then ψ.amp (flipBit j n) else ψ.amp j) = _
        by_cases hx : j.testBit k = true
        · have hf : flipBit j n < 2 ^ (n + 1) := (flipBit_lt_iff n.lt_succ_self j).mpr hj
          rw [if_pos hx, if_pos hx, hψ _ hf, ht, auxSign_flipBit_self]
          ring
        · rw [if_neg hx, if_neg hx, hψ j hj]
          ring
      have h2' : ∀ j, ¬ j < 2 ^ (n + 1) → (applyGate (Gate.cnot k n) ψ).amp j = 0 := by
        intro j hj
        show (if j.testBit k then ψ.amp (flipBit j n) else ψ.amp j) = 0
        have hfz : ψ.amp (flipBit j n) = 0 := by
          apply hz
          intro hf
          exact hj ((flipBit_lt_iff n.lt_succ_self j).mp hf)
        rw [hfz, hz j hj]
        simp
      obtain ⟨hS, hP, hZ⟩ := ih (k + 1) hrest _ ht' (applyGate (Gate.cnot k n) ψ) h1' h2'
      refine ⟨hS, ?_, hZ⟩
      intro j hj
      rw [hP j hj, sgnFrom_cons]
      by_cases hx : j.testBit k = true
      · rw [if_pos hx, if_pos ⟨hc, hx⟩]
        ring
      · rw [if_neg hx, if_neg (fun hand => hx hand.2)]
        ring
    · have hoc : oracleAux n k (c :: rest) = oracleAux n (k + 1) rest := by
        simp [oracleAux, hc]
      rw [hoc]
      obtain ⟨hS, hP, hZ⟩ := ih (k + 1) hrest t ht ψ hψ hz
      refine ⟨hS, ?_, hZ⟩
      intro j hj
      rw [hP j hj, sgnFrom_cons, if_neg (fun hand => hc hand.1)]
      ring

/-! Stage D: the second Hadamard layer.  Interference concentrates all
amplitude on the data index whose bits spell the secret. -/

lemma BitsMatch_nil (m j : Nat) : BitsMatch [] m j := trivial

lemma BitsMatch_cons {c : Char} {rest : List Char} {m j : Nat} :
    BitsMatch (c :: rest) m j ↔
      (j.testBit m = decide (c = '1')) ∧ BitsMatch rest (m + 1) j := Iff.rfl

lemma sgnFrom_flipBit_low :
    ∀ (l : List Char) (m t j : Nat), t < m → sgnFrom l m (flipBit j t) = sgnFrom l m j := by
  intro l
  induction l with
  | nil => intro m t j _; rfl
  | cons c rest ih =>
    intro m t j htm
    rw [sgnFrom_cons, sgnFrom_cons, ih (m + 1) t j (by omega), testBit_flipBit,
      if_neg (by omega : ¬ m = t)]

lemma BitsMatch_flipBit_high :
    ∀ (l : List Char) (m t j : Nat), m + l.length ≤ t →
      (BitsMatch l m (flipBit j t) ↔ BitsMatch l m j) := by
  intro l
  induction l with
  | nil => intro m t j _; exact Iff.rfl
  | cons c rest ih =>
    intro m t j h
    simp only [List.length_cons] at h
    rw [BitsMatch_cons, BitsMatch_cons, ih (m + 1) t j (by omega), testBit_flipBit,
      if_neg (by omega : ¬ m = t)]

lemma BitsMatch_append :
    ∀ (l₁ l₂ : List Char) (m j : Nat),
      BitsMatch (l₁ ++ l₂) m j ↔ BitsMatch l₁ m j ∧ BitsMatch l₂ (m + l₁.length) j := by
  intro l₁
  induction l₁ with
  | nil =>
    intro l₂ m j
    simp only [List.nil_append, List.length_nil, Nat.add_zero]
    exact ⟨fun h => ⟨trivial, h⟩, fun h => h.2⟩
  | cons c rest ih =>
    intro l₂ m j
    have harith : m + (c :: rest).length = m + 1 + rest.length := by
      simp only [List.length_cons]
      omega
    rw [List.cons_append, BitsMatch_cons, BitsMatch_cons, ih l₂ (m + 1) j, harith]
    exact and_assoc.symm

lemma hLayer2 (n : Nat) (r : List Char) (hr : r.length = n) (ψ0 : QState)
    (h1 : ∀ j, j < 2 ^ (n + 1) → ψ0.amp j = sgnFrom r 0 j * auxSign j n)
    (h2 : ∀ j, ¬ j < 2 ^ (n + 1) → ψ0.amp j = 0) :
    ∀ k, k ≤ n →
      (applyGates ((List.range k).map Gate.hadamard) ψ0).scale = ψ0.scale + k ∧
      (∀ j, j < 2 ^ (n + 1) → BitsMatch (r.take k) 0 j →
        (applyGates ((List.range k).map Gate.hadamard) ψ0).amp j
          = 2 ^ k * sgnFrom (r.drop k) k j * auxSign j n) ∧
      (∀ j, ¬(j < 2 ^ (n + 1) ∧ BitsMatch (r.take k) 0 j) →
        (applyGates ((List.range k).map Gate.hadamard) ψ0).amp j = 0) := by
  intro k
  induction k with
  | zero =>
    intro _
    refine ⟨rfl, ?_, ?_⟩
    · intro j hj _
      show ψ0.amp j = 2 ^ 0 * sgnFrom (r.drop 0) 0 j * auxSign j n
      rw [h1 j hj, List.drop_zero]
      ring
    · intro j hcon
      apply h2
      intro hj
      exact hcon ⟨hj, by rw [List.take_zero]; exact BitsMatch_nil 0 j⟩
  | succ k ih =>
    intro hk1
    have hkn : k < n := hk1
    have hklen : k < r.length := by omega
    obtain ⟨ihs, ihp, ihz⟩ := ih (Nat.le_of_lt hkn)
    have hstep : applyGates ((List.range (k + 1)).map Gate.hadamard) ψ0
        = applyGate (Gate.hadamard k) (applyGates ((List.range k).map Gate.hadamard) ψ0) := by
      rw [List.range_succ, List.map_append, applyGates_append]
      rfl
    set ψk := applyGates ((List.range k).map Gate.hadamard) ψ0 with hψk
    have htakelen : (r.take k).length = k := by
      rw [List.length_take]
      omega
    have htake : r.take (k + 1) = r.take k ++ [r[k]] := by
      rw [List.take_succ, List.getElem?_eq_getElem hklen]
      rfl
    have hdrop : r.drop k = r[k] :: r.drop (k + 1) := List.drop_eq_getElem_cons hklen
    have hmatch' : ∀ j, BitsMatch (r.take (k + 1)) 0 j ↔
        BitsMatch (r.take k) 0 j ∧ j.testBit k = decide (r[k] = '1') := by
      intro j
      rw [htake, BitsMatch_append, htakelen]
      constructor
      · rintro ⟨ha, hb, -⟩
        exact ⟨ha, by simpa using hb⟩
      · rintro ⟨ha, hb⟩
        exact ⟨ha, by simpa using hb, trivial⟩
    have hmatchflip : ∀ j, BitsMatch (r.take k) 0 (flipBit j k) ↔ BitsMatch (r.take k) 0 j := by
      intro j
      exact BitsMatch_flipBit_high (r.take k) 0 k j (by omega)
    have hsgnflip : ∀ j, sgnFrom (r.drop (k + 1)) (k + 1) (flipBit j k)
        = sgnFrom (r.drop (k + 1)) (k + 1) j := by
      intro j
      exact sgnFrom_flipBit_low _ (k + 1) k j (by omega)
    have hauxflip : ∀ j, auxSign (flipBit j k) n = auxSign j n :=
      auxSign_flipBit_ne (by omega : k ≠ n)
    have hfliplt : ∀ j, flipBit j k < 2 ^ (n + 1) ↔ j < 2 ^ (n + 1) :=
      flipBit_lt_iff (by omega)
    refine ⟨?_, ?_, ?_⟩
    · rw [hstep]
      show ψk.scale + 1 = ψ0.scale + (k + 1)
      rw [ihs]
      omega
    · intro j hj hm
      obtain ⟨hA, hbit⟩ := (hmatch' j).mp hm
      have hAf : BitsMatch (r.take k) 0 (flipBit j k) := (hmatchflip j).mpr hA
      have hflt : flipBit j k < 2 ^ (n + 1) := (hfliplt j).mpr hj
      have hampj : ψk.amp j
          = 2 ^ k * ((if r[k] = '1' ∧ j.testBit k = true then (-1 : ℤ) else 1)
              * sgnFrom (r.drop (k + 1)) (k + 1) j) * auxSign j n := by
        rw [ihp j hj hA, hdrop, sgnFrom_cons]
      have hampf : ψk.amp (flipBit j k)
          = 2 ^ k * ((if r[k] = '1' ∧ (!j.testBit k) = true then (-1 : ℤ) else 1)
              * sgnFrom (r.drop (k + 1)) (k + 1) j) * auxSign j n := by
        rw [ihp _ hflt hAf, hdrop, sgnFrom_cons, hsgnflip j, hauxflip j, testBit_flipBit,
          if_pos rfl]
      rw [hstep]
      show (if j.testBit k then ψk.amp (flipBit j k) - ψk.amp j
            else ψk.amp j + ψk.amp (flipBit j k))
          = 2 ^ (k + 1) * sgnFrom (r.drop (k + 1)) (k + 1) j * auxSign j n
      by_cases hx : j.testBit k = true
      · have hc : r[k] = '1' := of_decide_eq_true (hx ▸ hbit).symm ▸ rfl
        rw [if_pos hx, hampj, hampf, hx]
        rw [if_neg (by simp), if_pos ⟨hc, rfl⟩]
        ring
      · have hxf : j.testBit k = false := by
          cases hxv : j.testBit k
          · rfl
          · exact absurd hxv hx
        have hc : ¬ r[k] = '1' := by
          intro hcc
          rw [hxf] at hbit
          rw [hcc] at hbit
          simp at hbit
        rw [if_neg hx, hampj, hampf, hxf]
        rw [if_neg (by simp [hc]), if_neg (by simp [hc])]
        ring
    · intro j hcon
      rw [hstep]
      show (if j.testBit k then ψk.amp (flipBit j k) - ψk.amp j
            else ψk.amp j + ψk.amp (flipBit j k)) = 0
      by_cases hj : j < 2 ^ (n + 1)
      · by_cases hA : BitsMatch (r.take k) 0 j
        · -- matched so far, but the fresh bit disagrees with the secret
          have hbitne : ¬ j.testBit k = decide (r[k] = '1') := by
            intro hb
            exact hcon ⟨hj, (hmatch' j).mpr ⟨hA, hb⟩⟩
          have hAf : BitsMatch (r.take k) 0 (flipBit j k) := (hmatchflip j).mpr hA
          have hflt : flipBit j k < 2 ^ (n + 1) := (hfliplt j).mpr hj
          have hampj : ψk.amp j
              = 2 ^ k * ((if r[k] = '1' ∧ j.testBit k = true then (-1 : ℤ) else 1)
                  * sgnFrom (r.drop (k + 1)) (k + 1) j) * auxSign j n := by
            rw [ihp j hj hA, hdrop, sgnFrom_cons]
          have hampf : ψk.amp (flipBit j k)
              = 2 ^ k * ((if r[k] = '1' ∧ (!j.testBit k) = true then (-1 : ℤ) else 1)
                  * sgnFrom (r.drop (k + 1)) (k + 1) j) * auxSign j n := by
            rw [ihp _ hflt hAf, hdrop, sgnFrom_cons, hsgnflip j, hauxflip j, testBit_flipBit,
              if_pos rfl]
          by_cases hx : j.testBit k = true
          · have hc : ¬ r[k] = '1' := by
              intro hcc
              rw [hx, hcc] at hbitne
              simp at hbitne
            rw [if_pos hx, hampj, hampf, hx]
            rw [if_neg (by simp [hc]), if_neg (by simp [hc])]
            ring
          · have hxf : j.testBit k = false := by
              cases hxv : j.testBit k
              · rfl
              · exact absurd hxv hx
            have hc : r[k] = '1' := by
              by_contra hcc
              rw [hxf] at hbitne
              simp [hcc] at hbitne
            rw [if_neg hx, hampj, hampf, hxf]
            rw [if_neg (by simp), if_pos ⟨hc, rfl⟩]
            ring
        · have hzj : ψk.amp j = 0 := ihz j (fun h => hA h.2)
          have hzf : ψk.amp (flipBit j k) = 0 :=
            ihz _ (fun h => hA ((hmatchflip j).mp h.2))
          rw [hzj, hzf]
          cases j.testBit k <;> simp
      · have hzj : ψk.amp j = 0 := ihz j (fun h => hj h.1)
        have hzf : ψk.amp (flipBit j k) = 0 :=
          ihz _ (fun h => hj ((hfliplt j).mp h.1))
        rw [hzj, hzf]
        cases j.testBit k <;> simp

/-! Bridge: bits of `idxOfBits` and the `BitsMatch` predicate. -/

lemma idxOfBits_lt : ∀ r : List Char, idxOfBits r < 2 ^ r.length := by
  intro r
  induction r with
  | nil => simp [idxOfBits]
  | cons c rest ih =>
    rw [List.length_cons, pow_succ]
    unfold idxOfBits
    by_cases hc : c = '1' <;> simp [hc] <;> try omega

lemma testBit_idxOfBits : ∀ (r : List Char) (i : Nat),
    (idxOfBits r).testBit i = decide (r.getD i '0' = '1') := by
  intro r
  induction r with
  | nil =>
    intro i
    simp [idxOfBits, Nat.zero_testBit, List.getD]
  | cons c rest ih =>
    intro i
    cases i with
    | zero =>
      rw [Nat.testBit_zero, List.getD_cons_zero]
      unfold idxOfBits
      by_cases hc : c = '1' <;> simp [hc, Nat.add_mul_mod_self_left]
    | succ i =>
      rw [Nat.testBit_add_one, List.getD_cons_succ]
      unfold idxOfBits
      have hdiv : ((if c = '1' then 1 else 0) + 2 * idxOfBits rest) / 2 = idxOfBits rest := by
        by_cases hc : c = '1'
        · simp [hc]
          omega
        · simp [hc]
      rw [hdiv, ih i]

lemma BitsMatch_iff : ∀ (l : List Char) (k j : Nat),
    BitsMatch l k j ↔ ∀ i, i < l.length → j.testBit (k + i) = decide (l.getD i '0' = '1') := by
  intro l
  induction l with
  | nil =>
    intro k j
    simp [BitsMatch_nil]
  | cons c rest ih =>
    intro k j
    rw [BitsMatch_cons, ih (k + 1) j]
    constructor
    · rintro ⟨h0, hrest⟩ i hi
      cases i with
      | zero => simpa using h0
      | succ i =>
        rw [List.getD_cons_succ, show k + (i + 1) = k + 1 + i by omega]
        exact hrest i (by simpa using hi)
    · intro h
      refine ⟨by simpa using h 0 (by simp), ?_⟩
      intro i hi
      rw [show k + 1 + i = k + (i + 1) by omega]
      have := h (i + 1) (by simpa using hi)
      rwa [List.getD_cons_succ] at this

lemma secret_cond_iff (r : List Char) (n : Nat) (hr : r.length = n) (j : Nat) :
    (j < 2 ^ (n + 1) ∧ BitsMatch r 0 j) ↔
      (j = idxOfBits r ∨ j = idxOfBits r + 2 ^ n) := by
  have hblt : idxOfBits r < 2 ^ n := hr ▸ idxOfBits_lt r
  have hbn : (idxOfBits r).testBit n = false := Nat.testBit_lt_two_pow hblt
  have hsum : idxOfBits r + 2 ^ n < 2 ^ (n + 1) := by
    rw [pow_succ]
    omega
  have hsumbit : ∀ i, (idxOfBits r + 2 ^ n).testBit i
      = if i = n then true else if i < n then (idxOfBits r).testBit i else false := by
    intro i
    rw [Nat.add_comm]
    rcases lt_trichotomy i n with h | h | h
    · rw [if_neg (by omega), if_pos h, Nat.testBit_two_pow_add_gt h]
    · subst h
      rw [if_pos rfl, Nat.testBit_two_pow_add_eq, hbn]
      rfl
    · rw [if_neg (by omega), if_neg (by omega)]
      exact testBit_eq_false_of_lt (by rw [Nat.add_comm]; exact hsum) (by omega)
  constructor
  · rintro ⟨hj, hm⟩
    have hbits : ∀ i, i < n → j.testBit i = (idxOfBits r).testBit i := by
      intro i hi
      have := (BitsMatch_iff r 0 j).mp hm i (by omega)
      rw [Nat.zero_add] at this
      rw [this, testBit_idxOfBits]
    cases hx : j.testBit n
    · left
      apply Nat.eq_of_testBit_eq
      intro i
      rcases lt_trichotomy i n with h | h | h
      · exact hbits i h
      · subst h
        rw [hx, hbn]
      · rw [testBit_eq_false_of_lt hj (by omega),
          testBit_eq_false_of_lt (lt_trans hblt (Nat.pow_lt_pow_right one_lt_two h)) le_rfl]
    · right
      apply Nat.eq_of_testBit_eq
      intro i
      rw [hsumbit i]
      rcases lt_trichotomy i n with h | h | h
      · rw [if_neg (by omega), if_pos h]
        exact hbits i h
      · subst h
        rw [if_pos rfl, hx]
      · rw [if_neg (by omega), if_neg (by omega)]
        exact testBit_eq_false_of_lt hj (by omega)
  · intro hj
    cases hj with
    | inl h =>
      subst h
      refine ⟨lt_trans hblt (Nat.pow_lt_pow_right one_lt_two n.lt_succ_self), ?_⟩
      rw [BitsMatch_iff]
      intro i hi
      rw [Nat.zero_add, testBit_idxOfBits]
    | inr h =>
      subst h
      refine ⟨hsum, ?_⟩
      rw [BitsMatch_iff]
      intro i hi
      rw [Nat.zero_add, hsumbit i, if_neg (by omega), if_pos (by omega),
        testBit_idxOfBits]

/-! The closed form of the final state of the assembled circuit. -/

lemma finalState (s : List Char) :
    (runCircuit (bernstein_vazirani_circuit s)).scale = 2 * s.length + 1 ∧
    ∀ j, (runCircuit (bernstein_vazirani_circuit s)).amp j =
      if j = secretIndex s then (2 : ℤ) ^ s.length
      else if j = secretIndex s + 2 ^ s.length then -(2 ^ s.length) else 0 := by
  obtain ⟨hBs, hBp, hBz⟩ := stageB s.length s.length le_rfl
  have hr : s.reverse.length = s.length := List.length_reverse s
  have hmidtriv : ∀ j, MidClear s.length s.length j := by
    intro j i h1 h2
    omega
  have h1 : ∀ j, j < 2 ^ (s.length + 1) →
      (stateB s.length s.length).amp j = (fun _ => (1 : ℤ)) j * auxSign j s.length := by
    intro j hj
    rw [hBp j hj (hmidtriv j)]
    ring
  have h2 : ∀ j, ¬ j < 2 ^ (s.length + 1) → (stateB s.length s.length).amp j = 0 := by
    intro j hj
    exact hBz j (fun h => hj h.1)
  obtain ⟨hCs, hCp, hCz⟩ := oracleStage s.length s.reverse 0 (by omega)
    (fun _ => (1 : ℤ)) (fun j => rfl) (stateB s.length s.length) h1 h2
  have hC1 : ∀ j, j < 2 ^ (s.length + 1) →
      (applyGates (oracleAux s.length 0 s.reverse) (stateB s.length s.length)).amp j
        = sgnFrom s.reverse 0 j * auxSign j s.length := by
    intro j hj
    rw [hCp j hj]
    ring
  obtain ⟨hDs, hDp, hDz⟩ := hLayer2 s.length s.reverse hr
    (applyGates (oracleAux s.length 0 s.reverse) (stateB s.length s.length)) hC1 hCz
    s.length le_rfl
  have hrun : runCircuit (bernstein_vazirani_circuit s)
      = applyGates ((List.range s.length).map Gate.hadamard)
          (applyGates (oracleAux s.length 0 s.reverse) (stateB s.length s.length)) := by
    show applyGates (bernstein_vazirani_circuit s).gates initState = _
    have hg : (bernstein_vazirani_circuit s).gates
        = [Gate.pauliX s.length, Gate.hadamard s.length]
          ++ (List.range s.length).map Gate.hadamard
          ++ [Gate.barrier]
          ++ create_oracle s
          ++ [Gate.barrier]
          ++ (List.range s.length).map Gate.hadamard := rfl
    rw [hg, applyGates_append, applyGates_append, applyGates_append, applyGates_append,
      applyGates_append, applyGates_barrier, applyGates_barrier, create_oracle_eq]
    rfl
  have htaken : s.reverse.take s.length = s.reverse := by
    rw [← hr]
    exact List.take_length s.reverse
  have hdropn : s.reverse.drop s.length = [] := by
    rw [← hr]
    exact List.drop_length s.reverse
  constructor
  · rw [hrun, hDs, hCs, hBs]
    omega
  · intro j
    have hcond := secret_cond_iff s.reverse s.length hr j
    by_cases hjb : j = secretIndex s
    · have hc : j < 2 ^ (s.length + 1) ∧ BitsMatch s.reverse 0 j :=
        hcond.mpr (Or.inl hjb)
      rw [hrun, hDp j hc.1 (by rw [htaken]; exact hc.2), hdropn, sgnFrom_nil, if_pos hjb]
      have : auxSign j s.length = 1 := by
        unfold auxSign
        rw [hjb]
        show (if (idxOfBits s.reverse).testBit s.length = true then (-1 : ℤ) else 1) = 1
        rw [Nat.testBit_lt_two_pow (hr ▸ idxOfBits_lt s.reverse)]
        rfl
      rw [this]
      ring
    · by_cases hjb2 : j = secretIndex s + 2 ^ s.length
      · have hc : j < 2 ^ (s.length + 1) ∧ BitsMatch s.reverse 0 j :=
          hcond.mpr (Or.inr hjb2)
        rw [hrun, hDp j hc.1 (by rw [htaken]; exact hc.2), hdropn, sgnFrom_nil,
          if_neg hjb, if_pos hjb2]
        have : auxSign j s.length = -1 := by
          unfold auxSign
          rw [hjb2]
          show (if (idxOfBits s.reverse + 2 ^ s.length).testBit s.length = true
                then (-1 : ℤ) else 1) = -1
          rw [Nat.add_comm, Nat.testBit_two_pow_add_eq,
            Nat.testBit_lt_two_pow (hr ▸ idxOfBits_lt s.reverse)]
          rfl
        rw [this]
        ring
      · rw [hrun, if_neg hjb, if_neg hjb2]
        apply hDz
        rw [htaken]
        intro hc
        rcases hcond.mp hc with h | h
        · exact hjb h
        · exact hjb2 h

/-! The validator, the outcome distribution of the final state, and sampling. -/

lemma validate_iff (s : List Char) :
    validate_binary_string s = true ↔ (s ≠ [] ∧ ∀ c ∈ s, c = '0' ∨ c = '1') := by
  unfold validate_binary_string
  rw [Bool.and_eq_true, List.all_eq_true, decide_eq_true_eq]
  constructor
  · rintro ⟨hall, hpos⟩
    refine ⟨by rw [← List.length_pos_iff_ne_nil]; omega, ?_⟩
    intro c hc
    have := hall c hc
    rcases (Bool.or_eq_true _ _).mp this with h | h
    · exact Or.inl (by simpa using h)
    · exact Or.inr (by simpa using h)
  · rintro ⟨hne, hall⟩
    refine ⟨?_, List.length_pos_iff_ne_nil.mpr hne⟩
    intro c hc
    rcases hall c hc with h | h
    · simp [h]
    · simp [h]

lemma secretIndex_lt (s : List Char) : secretIndex s < 2 ^ s.length := by
  unfold secretIndex
  have := idxOfBits_lt s.reverse
  rwa [List.length_reverse] at this

lemma finalProb (s : List Char) :
    outcomeProb (runCircuit (bernstein_vazirani_circuit s)) s.length (secretIndex s) = 1 ∧
    ∀ y, y < 2 ^ s.length → y ≠ secretIndex s →
      outcomeProb (runCircuit (bernstein_vazirani_circuit s)) s.length y = 0 := by
  obtain ⟨hsc, hamp⟩ := finalState s
  have hblt := secretIndex_lt s
  have hpos : (0 : Nat) < 2 ^ s.length := Nat.two_pow_pos s.length
  constructor
  · unfold outcomeProb outcomeWeight
    rw [hamp (secretIndex s), hamp (secretIndex s + 2 ^ s.length), if_pos rfl,
      if_neg (by omega : ¬ secretIndex s + 2 ^ s.length = secretIndex s), if_pos rfl, hsc]
    push_cast
    rw [div_eq_one_iff_eq (by positivity)]
    ring
  · intro y hy hyne
    unfold outcomeProb outcomeWeight
    rw [hamp y, hamp (y + 2 ^ s.length), if_neg hyne, if_neg (by omega), if_neg (by omega),
      if_neg (by omega)]
    norm_num

lemma getD_reverse_char (s : List Char) (t : Nat) (ht : t < s.length) :
    s.reverse.getD (s.length - 1 - t) '0' = s.getD t '0' := by
  rw [List.getD_eq_getElem?_getD, List.getD_eq_getElem?_getD,
    List.getElem?_reverse (by omega),
    show s.length - 1 - (s.length - 1 - t) = t from by omega]

lemma outcomeString_secretIndex (s : List Char)
    (hchars : ∀ c ∈ s, c = '0' ∨ c = '1') :
    outcomeString s.length (secretIndex s) = s := by
  unfold outcomeString
  apply List.ext_getElem
  · simp
  · intro t h1 h2
    have ht : t < s.length := h2
    rw [List.getElem_map, List.getElem_reverse, List.getElem_range]
    simp only [List.length_range]
    unfold secretIndex
    rw [testBit_idxOfBits, getD_reverse_char s t ht,
      List.getD_eq_getElem s '0' ht]
    have hmemt : s[t] ∈ s := List.getElem_mem ht
    rcases hchars s[t] hmemt with h | h
    · rw [h]
      rfl
    · rw [h]
      rfl

lemma drawOutcome_lt (ψ : QState) (n : Nat) (r : ℚ) : drawOutcome ψ n r < 2 ^ n := by
  unfold drawOutcome
  cases hf : (List.range (2 ^ n)).find? (fun y => decide (r < cumProb ψ n (y + 1))) with
  | none =>
    show 2 ^ n - 1 < 2 ^ n
    have := Nat.two_pow_pos n
    omega
  | some y =>
    show y < 2 ^ n
    exact List.mem_range.mp (List.mem_of_find?_eq_some hf)

lemma find?_range_eq_some {p : Nat → Bool} {b : Nat} (hpb : p b = true)
    (hlt : ∀ y, y < b → p y = false) :
    ∀ m, b < m → (List.range m).find? p = some b := by
  intro m
  induction m with
  | zero => omega
  | succ m ih =>
    intro hbm
    rw [List.range_succ, List.find?_append]
    by_cases hb : b < m
    · rw [ih hb]
      rfl
    · have hbe : b = m := by omega
      have hnone : (List.range m).find? p = none := by
        rw [List.find?_eq_none]
        intro x hx
        have hxm := List.mem_range.mp hx
        rw [hlt x (by omega)]
        simp
      have hpm : p m = true := hbe ▸ hpb
      rw [hnone, hbe, Option.none_or, List.find?_cons_of_pos _ hpm]

lemma finalDraw (s : List Char) (r : ℚ) (h0 : 0 ≤ r) (h1 : r < 1) :
    drawOutcome (runCircuit (bernstein_vazirani_circuit s)) s.length r = secretIndex s := by
  obtain ⟨hp1, hp0⟩ := finalProb s
  have hblt := secretIndex_lt s
  have hcum : ∀ z, z ≤ 2 ^ s.length →
      cumProb (runCircuit (bernstein_vazirani_circuit s)) s.length z
        = if secretIndex s < z then 1 else 0 := by
    intro z hz
    unfold cumProb
    have : ∀ w ∈ Finset.range z,
        outcomeProb (runCircuit (bernstein_vazirani_circuit s)) s.length w
          = if w = secretIndex s then 1 else 0 := by
      intro w hw
      by_cases hws : w = secretIndex s
      · rw [if_pos hws, hws]
        exact hp1
      · rw [if_neg hws]
        exact hp0 w (by have := Finset.mem_range.mp hw; omega) hws
    rw [Finset.sum_congr rfl this, Finset.sum_ite_eq' (Finset.range z) (secretIndex s)
      (fun _ => (1 : ℚ))]
    by_cases hmem : secretIndex s < z
    · rw [if_pos (Finset.mem_range.mpr hmem), if_pos hmem]
    · rw [if_neg (by rw [Finset.mem_range]; exact hmem), if_neg hmem]
  unfold drawOutcome
  have hfind : (List.range (2 ^ s.length)).find?
      (fun y => decide (r < cumProb (runCircuit (bernstein_vazirani_circuit s)) s.length (y + 1)))
      = some (secretIndex s) := by
    apply find?_range_eq_some
    · rw [decide_eq_true_eq, hcum (secretIndex s + 1) (by omega), if_pos (by omega)]
      exact h1
    · intro y hy
      rw [hcum (y + 1) (by omega), if_neg (by omega)]
      simp only [decide_eq_false_iff_not, not_lt]
      exact h0
    · exact hblt
  rw [hfind]

lemma sampleCounts_sum (ψ : QState) (n shots : Nat) (seed : Nat → ℚ) :
    ∑ y ∈ Finset.range (2 ^ n), sampleCounts ψ n shots seed y = shots := by
  have h := Finset.card_eq_sum_card_fiberwise
    (fun (x : Nat) (_ : x ∈ Finset.range shots) =>
      Finset.mem_range.mpr (drawOutcome_lt ψ n (seed x)))
  rw [Finset.card_range] at h
  exact h.symm

lemma sampleCounts_eq_zero_of_ge (ψ : QState) (n shots : Nat) (seed : Nat → ℚ)
    (y : Nat) (hy : 2 ^ n ≤ y) : sampleCounts ψ n shots seed y = 0 := by
  unfold sampleCounts
  rw [Finset.card_eq_zero, Finset.filter_eq_empty_iff]
  intro t _
  have := drawOutcome_lt ψ n (seed t)
  omega

/-! Norm preservation: every gate of the set is unitary, so the probability
mass `normSq / 2 ^ scale` stays equal to one. -/

lemma sum_flipBit (m t : Nat) (ht : t < m) (F : Nat → ℤ) :
    ∑ j ∈ Finset.range (2 ^ m), F (flipBit j t) = ∑ j ∈ Finset.range (2 ^ m), F j := by
  apply Finset.sum_nbij' (fun j => flipBit j t) (fun j => flipBit j t)
  · intro a ha
    exact Finset.mem_range.mpr (flipBit_lt_of_lt ht (Finset.mem_range.mp ha))
  · intro a ha
    exact Finset.mem_range.mpr (flipBit_lt_of_lt ht (Finset.mem_range.mp ha))
  · intro a _
    exact flipBit_flipBit a t
  · intro a _
    exact flipBit_flipBit a t
  · intro a _
    rfl

lemma sum_filter_flip (m t : Nat) (ht : t < m) (F : Nat → ℤ) :
    ∑ j ∈ (Finset.range (2 ^ m)).filter (fun j => j.testBit t = true), F j
      = ∑ j ∈ (Finset.range (2 ^ m)).filter (fun j => ¬ j.testBit t = true),
          F (flipBit j t) := by
  apply Finset.sum_nbij' (fun j => flipBit j t) (fun j => flipBit j t)
  · intro a ha
    obtain ⟨har, hab⟩ := Finset.mem_filter.mp ha
    refine Finset.mem_filter.mpr ⟨Finset.mem_range.mpr
      (flipBit_lt_of_lt ht (Finset.mem_range.mp har)), ?_⟩
    rw [testBit_flipBit, if_pos rfl, hab]
    simp
  · intro a ha
    obtain ⟨har, hab⟩ := Finset.mem_filter.mp ha
    refine Finset.mem_filter.mpr ⟨Finset.mem_range.mpr
      (flipBit_lt_of_lt ht (Finset.mem_range.mp har)), ?_⟩
    rw [testBit_flipBit, if_pos rfl]
    cases hx : a.testBit t
    · rfl
    · exact absurd hx hab
  · intro a _
    exact flipBit_flipBit a t
  · intro a _
    exact flipBit_flipBit a t
  · intro a _
    rw [flipBit_flipBit]

lemma sum_filter_flip_other (m c t : Nat) (ht : t < m) (hct : c ≠ t) (F : Nat → ℤ) :
    ∑ j ∈ (Finset.range (2 ^ m)).filter (fun j => j.testBit c = true), F (flipBit j t)
      = ∑ j ∈ (Finset.range (2 ^ m)).filter (fun j => j.testBit c = true), F j := by
  apply Finset.sum_nbij' (fun j => flipBit j t) (fun j => flipBit j t)
  · intro a ha
    obtain ⟨har, hab⟩ := Finset.mem_filter.mp ha
    refine Finset.mem_filter.mpr ⟨Finset.mem_range.mpr
      (flipBit_lt_of_lt ht (Finset.mem_range.mp har)), ?_⟩
    rw [testBit_flipBit, if_neg hct]
    exact hab
  · intro a ha
    obtain ⟨har, hab⟩ := Finset.mem_filter.mp ha
    refine Finset.mem_filter.mpr ⟨Finset.mem_range.mpr
      (flipBit_lt_of_lt ht (Finset.mem_range.mp har)), ?_⟩
    rw [testBit_flipBit, if_neg hct]
    exact hab
  · intro a _
    exact flipBit_flipBit a t
  · intro a _
    exact flipBit_flipBit a t
  · intro a _
    rfl

lemma normSq_pauliX (m t : Nat) (ht : t < m) (ψ : QState) :
    normSq (applyGate (Gate.pauliX t) ψ) m = normSq ψ m := by
  show ∑ j ∈ Finset.range (2 ^ m), ψ.amp (flipBit j t) ^ 2
    = ∑ j ∈ Finset.range (2 ^ m), ψ.amp j ^ 2
  exact sum_flipBit m t ht (fun j => ψ.amp j ^ 2)

lemma normSq_cnot (m c t : Nat) (_hc : c < m) (ht : t < m) (hct : c ≠ t) (ψ : QState) :
    normSq (applyGate (Gate.cnot c t) ψ) m = normSq ψ m := by
  show ∑ j ∈ Finset.range (2 ^ m),
      (if j.testBit c then ψ.amp (flipBit j t) else ψ.amp j) ^ 2
    = ∑ j ∈ Finset.range (2 ^ m), ψ.amp j ^ 2
  rw [← Finset.sum_filter_add_sum_filter_not (Finset.range (2 ^ m))
      (fun j => j.testBit c = true)
      (fun j => (if j.testBit c then ψ.amp (flipBit j t) else ψ.amp j) ^ 2),
    ← Finset.sum_filter_add_sum_filter_not (Finset.range (2 ^ m))
      (fun j => j.testBit c = true) (fun j => ψ.amp j ^ 2)]
  congr 1
  · rw [Finset.sum_congr rfl (fun j hj => by
      rw [if_pos ((Finset.mem_filter.mp hj).2)])]
    exact sum_filter_flip_other m c t ht hct (fun j => ψ.amp j ^ 2)
  · exact Finset.sum_congr rfl (fun j hj => by
      rw [if_neg ((Finset.mem_filter.mp hj).2)])

lemma normSq_hadamard (m t : Nat) (ht : t < m) (ψ : QState) :
    normSq (applyGate (Gate.hadamard t) ψ) m = 2 * normSq ψ m := by
  show ∑ j ∈ Finset.range (2 ^ m),
      (if j.testBit t then ψ.amp (flipBit j t) - ψ.amp j
       else ψ.amp j + ψ.amp (flipBit j t)) ^ 2
    = 2 * ∑ j ∈ Finset.range (2 ^ m), ψ.amp j ^ 2
  rw [← Finset.sum_filter_add_sum_filter_not (Finset.range (2 ^ m))
      (fun j => j.testBit t = true)
      (fun j => (if j.testBit t then ψ.amp (flipBit j t) - ψ.amp j
                 else ψ.amp j + ψ.amp (flipBit j t)) ^ 2),
    ← Finset.sum_filter_add_sum_filter_not (Finset.range (2 ^ m))
      (fun j => j.testBit t = true) (fun j => ψ.amp j ^ 2)]
  have htrue : ∑ j ∈ (Finset.range (2 ^ m)).filter (fun j => j.testBit t = true),
      (if j.testBit t then ψ.amp (flipBit j t) - ψ.amp j
       else ψ.amp j + ψ.amp (flipBit j t)) ^ 2
      = ∑ j ∈ (Finset.range (2 ^ m)).filter (fun j => ¬ j.testBit t = true),
          (ψ.amp j - ψ.amp (flipBit j t)) ^ 2 := by
    rw [Finset.sum_congr rfl (fun j hj => by
      rw [if_pos ((Finset.mem_filter.mp hj).2)]),
      sum_filter_flip m t ht (fun j => (ψ.amp (flipBit j t) - ψ.amp j) ^ 2)]
    apply Finset.sum_congr rfl
    intro j _
    rw [flipBit_flipBit]
  have hfalse : ∑ j ∈ (Finset.range (2 ^ m)).filter (fun j => ¬ j.testBit t = true),
      (if j.testBit t then ψ.amp (flipBit j t) - ψ.amp j
       else ψ.amp j + ψ.amp (flipBit j t)) ^ 2
      = ∑ j ∈ (Finset.range (2 ^ m)).filter (fun j => ¬ j.testBit t = true),
          (ψ.amp j + ψ.amp (flipBit j t)) ^ 2 :=
    Finset.sum_congr rfl (fun j hj => by
      rw [if_neg (by simpa using (Finset.mem_filter.mp hj).2)])
  have hsq : ∑ j ∈ (Finset.range (2 ^ m)).filter (fun j => j.testBit t = true),
      ψ.amp j ^ 2
      = ∑ j ∈ (Finset.range (2 ^ m)).filter (fun j => ¬ j.testBit t = true),
          ψ.amp (flipBit j t) ^ 2 :=
    sum_filter_flip m t ht (fun j => ψ.amp j ^ 2)
  rw [htrue, hfalse, hsq, ← Finset.sum_add_distrib, ← Finset.sum_add_distrib,
    Finset.mul_sum]
  apply Finset.sum_congr rfl
  intro j _
  ring

lemma normSq_initState (m : Nat) : normSq initState m = 1 := by
  show ∑ j ∈ Finset.range (2 ^ m), (if j = 0 then (1 : ℤ) else 0) ^ 2 = 1
  rw [Finset.sum_congr rfl (fun j _ => by
    show (if j = 0 then (1 : ℤ) else 0) ^ 2 = if j = 0 then (1 : ℤ) else 0
    split_ifs <;> norm_num)]
  rw [Finset.sum_ite_eq' (Finset.range (2 ^ m)) 0 (fun _ => (1 : ℤ)),
    if_pos (Finset.mem_range.mpr (Nat.two_pow_pos m))]

lemma normSq_applyGate_inv (m : Nat) (g : Gate) (hg : gateOk m g) (ψ : QState)
    (h : normSq ψ m = 2 ^ ψ.scale) :
    normSq (applyGate g ψ) m = 2 ^ (applyGate g ψ).scale := by
  cases g with
  | pauliX t =>
    show normSq (applyGate (Gate.pauliX t) ψ) m = 2 ^ ψ.scale
    rw [normSq_pauliX m t hg ψ, h]
  | hadamard t =>
    show normSq (applyGate (Gate.hadamard t) ψ) m = 2 ^ (ψ.scale + 1)
    rw [normSq_hadamard m t hg ψ, h, pow_succ]
    ring
  | cnot c t =>
    obtain ⟨h1, h2, h3⟩ := hg
    show normSq (applyGate (Gate.cnot c t) ψ) m = 2 ^ ψ.scale
    rw [normSq_cnot m c t h1 h2 h3 ψ, h]
  | barrier => exact h

lemma normSq_applyGates_inv (m : Nat) :
    ∀ (gs : List Gate), (∀ g ∈ gs, gateOk m g) →
      ∀ ψ, normSq ψ m = 2 ^ ψ.scale →
        normSq (applyGates gs ψ) m = 2 ^ (applyGates gs ψ).scale := by
  intro gs
  induction gs with
  | nil => intro _ ψ h; exact h
  | cons g rest ih =>
    intro hgs ψ h
    rw [applyGates_cons]
    exact ih (fun g' hg' => hgs g' (List.mem_cons_of_mem g hg'))
      (applyGate g ψ) (normSq_applyGate_inv m g (hgs g (List.mem_cons_self g rest)) ψ h)

/-! Membership structure of the oracle gate list. -/

lemma mem_oracleAux : ∀ (r : List Char) (tgt k : Nat) (g : Gate),
    g ∈ oracleAux tgt k r ↔
      ∃ i, i < r.length ∧ r.getD i '0' = '1' ∧ g = Gate.cnot (k + i) tgt := by
  intro r
  induction r with
  | nil =>
    intro tgt k g
    simp [oracleAux]
  | cons c rest ih =>
    intro tgt k g
    show g ∈ (if c = '1' then [Gate.cnot k tgt] else []) ++ oracleAux tgt (k + 1) rest ↔ _
    rw [List.mem_append, ih tgt (k + 1) g]
    constructor
    · rintro (hg | ⟨i, hi, hc, hgeq⟩)
      · by_cases hc : c = '1'
        · rw [if_pos hc] at hg
          refine ⟨0, by simp, by rw [List.getD_cons_zero]; exact hc, ?_⟩
          have : g = Gate.cnot k tgt := by simpa using hg
          rw [this, Nat.add_zero]
        · rw [if_neg hc] at hg
          exact absurd hg (List.not_mem_nil g)
      · refine ⟨i + 1, by simp only [List.length_cons]; omega,
          by rw [List.getD_cons_succ]; exact hc, ?_⟩
        rw [hgeq]
        rw [show k + (i + 1) = k + 1 + i from by omega]
    · rintro ⟨i, hi, hc, hgeq⟩
      cases i with
      | zero =>
        left
        rw [List.getD_cons_zero] at hc
        rw [if_pos hc, hgeq, Nat.add_zero]
        exact List.mem_singleton_self _
      | succ i =>
        right
        rw [List.getD_cons_succ] at hc
        refine ⟨i, by simp only [List.length_cons] at hi; omega, hc, ?_⟩
        rw [hgeq]
        rw [show k + (i + 1) = k + 1 + i from by omega]

lemma mem_create_oracle (s : List Char) (g : Gate) :
    g ∈ create_oracle s ↔
      ∃ i, i < s.length ∧ s.reverse.getD i '0' = '1' ∧ g = Gate.cnot i s.length := by
  rw [create_oracle_eq, mem_oracleAux]
  constructor
  · rintro ⟨i, hi, hc, hgeq⟩
    rw [List.length_reverse] at hi
    exact ⟨i, hi, hc, by rw [hgeq, Nat.zero_add]⟩
  · rintro ⟨i, hi, hc, hgeq⟩
    exact ⟨i, by rw [List.length_reverse]; exact hi, hc, by rw [hgeq, Nat.zero_add]⟩

lemma nodup_oracleAux : ∀ (r : List Char) (tgt k : Nat), (oracleAux tgt k r).Nodup := by
  intro r
  induction r with
  | nil => intro tgt k; exact List.nodup_nil
  | cons c rest ih =>
    intro tgt k
    show ((if c = '1' then [Gate.cnot k tgt] else []) ++ oracleAux tgt (k + 1) rest).Nodup
    rw [List.nodup_append]
    refine ⟨?_, ih tgt (k + 1), ?_⟩
    · by_cases hc : c = '1'
      · rw [if_pos hc]
        exact List.nodup_singleton _
      · rw [if_neg hc]
        exact List.nodup_nil
    · intro g hg1 hg2
      by_cases hc : c = '1'
      · rw [if_pos hc] at hg1
        have hgk : g = Gate.cnot k tgt := by simpa using hg1
        obtain ⟨i, hi, hcc, hgeq⟩ := (mem_oracleAux rest tgt (k + 1) g).mp hg2
        rw [hgk] at hgeq
        injection hgeq with h1 h2
        omega
      · rw [if_neg hc] at hg1
        exact absurd hg1 (List.not_mem_nil g)

lemma nodup_create_oracle (s : List Char) : (create_oracle s).Nodup := by
  rw [create_oracle_eq]
  exact nodup_oracleAux s.reverse s.length 0

lemma bv_gateOk (s : List Char) :
    ∀ g ∈ (bernstein_vazirani_circuit s).gates, gateOk (s.length + 1) g := by
  intro g hg
  have hg' : g ∈ [Gate.pauliX s.length, Gate.hadamard s.length]
      ++ (List.range s.length).map Gate.hadamard ++ [Gate.barrier]
      ++ create_oracle s ++ [Gate.barrier]
      ++ (List.range s.length).map Gate.hadamard := hg
  simp only [List.mem_append] at hg'
  rcases hg' with ((((hp | hmap) | hb) | horacle) | hb2) | hmap2
  · simp only [List.mem_cons, List.not_mem_nil, or_false] at hp
    rcases hp with hp | hp
    · rw [hp]
      show s.length < s.length + 1
      omega
    · rw [hp]
      show s.length < s.length + 1
      omega
  · obtain ⟨k, hk, hgeq⟩ := List.mem_map.mp hmap
    rw [← hgeq]
    show k < s.length + 1
    have := List.mem_range.mp hk
    omega
  · have : g = Gate.barrier := by simpa using hb
    rw [this]
    exact trivial
  · obtain ⟨i, hi, _, hgeq⟩ := (mem_create_oracle s g).mp horacle
    rw [hgeq]
    exact ⟨by omega, by omega, by omega⟩
  · have : g = Gate.barrier := by simpa using hb2
    rw [this]
    exact trivial
  · obtain ⟨k, hk, hgeq⟩ := List.mem_map.mp hmap2
    rw [← hgeq]
    show k < s.length + 1
    have := List.mem_range.mp hk
    omega

/-! Barriers are inert, and the barrier-free gate list of the circuit. -/

lemma applyGates_removeBarriers : ∀ (gs : List Gate) (ψ : QState),
    applyGates (removeBarriers gs) ψ = applyGates gs ψ := by
  intro gs
  induction gs with
  | nil => intro ψ; rfl
  | cons g rest ih =>
    intro ψ
    show applyGates (List.filter (fun g => decide (g ≠ Gate.barrier)) (g :: rest)) ψ = _
    rw [List.filter_cons]
    by_cases hb : g = Gate.barrier
    · rw [if_neg (by simp [hb])]
      rw [applyGates_cons]
      have hbg : applyGate g ψ = ψ := by
        rw [hb]
        rfl
      rw [hbg]
      exact ih ψ
    · rw [if_pos (by simp [hb])]
      rw [applyGates_cons, applyGates_cons]
      exact ih (applyGate g ψ)

lemma removeBarriers_bv (s : List Char) :
    removeBarriers (bernstein_vazirani_circuit s).gates
      = [Gate.pauliX s.length, Gate.hadamard s.length]
        ++ (List.range s.length).map Gate.hadamard
        ++ create_oracle s
        ++ (List.range s.length).map Gate.hadamard := by
  show List.filter (fun g => decide (g ≠ Gate.barrier))
      ([Gate.pauliX s.length, Gate.hadamard s.length]
        ++ (List.range s.length).map Gate.hadamard ++ [Gate.barrier]
        ++ create_oracle s ++ [Gate.barrier]
        ++ (List.range s.length).map Gate.hadamard) = _
  rw [List.filter_append, List.filter_append, List.filter_append, List.filter_append,
    List.filter_append]
  have hmap : List.filter (fun g => decide (g ≠ Gate.barrier))
      ((List.range s.length).map Gate.hadamard) = (List.range s.length).map Gate.hadamard := by
    rw [List.filter_eq_self]
    intro a ha
    obtain ⟨k, _, hk⟩ := List.mem_map.mp ha
    rw [← hk]
    rfl
  have hpair : List.filter (fun g => decide (g ≠ Gate.barrier))
      [Gate.pauliX s.length, Gate.hadamard s.length]
      = [Gate.pauliX s.length, Gate.hadamard s.length] := by
    rw [List.filter_eq_self]
    intro a ha
    simp only [List.mem_cons, List.not_mem_nil, or_false] at ha
    rcases ha with h | h <;> rw [h] <;> rfl
  have hbar : List.filter (fun g => decide (g ≠ Gate.barrier)) [Gate.barrier] = [] := rfl
  have horc : List.filter (fun g => decide (g ≠ Gate.barrier)) (create_oracle s)
      = create_oracle s := by
    rw [List.filter_eq_self]
    intro a ha
    obtain ⟨i, _, _, hgeq⟩ := (mem_create_oracle s a).mp ha
    rw [hgeq]
    rfl
  rw [hpair, hmap, hbar, horc, List.append_nil, List.append_nil]

/-! The behaviour of Python's `max` over the observed outcomes. -/

lemma pythonMax_go (val : Nat → Nat) :
    ∀ (l : List Nat) (b : Nat),
      ∃ f, l.foldl (fun best y =>
          match best with
          | none => some y
          | some b' => if val b' < val y then some y else some b') (some b) = some f ∧
        (f = b ∨ f ∈ l) ∧ val b ≤ val f ∧ ∀ y ∈ l, val y ≤ val f := by
  intro l
  induction l with
  | nil =>
    intro b
    exact ⟨b, rfl, Or.inl rfl, le_rfl, fun y hy => absurd hy (List.not_mem_nil y)⟩
  | cons y rest ih =>
    intro b
    rw [List.foldl_cons]
    show ∃ f, List.foldl (fun best y =>
        match best with
        | none => some y
        | some b' => if val b' < val y then some y else some b')
      (if val b < val y then some y else some b) rest = some f ∧
      (f = b ∨ f ∈ y :: rest) ∧ val b ≤ val f ∧ ∀ z ∈ y :: rest, val z ≤ val f
    by_cases hv : val b < val y
    · rw [if_pos hv]
      obtain ⟨f, hf, hmem, hle, hall⟩ := ih y
      refine ⟨f, hf, ?_, le_trans (le_of_lt hv) hle, ?_⟩
      · rcases hmem with h | h
        · exact Or.inr (h ▸ List.mem_cons_self y rest)
        · exact Or.inr (List.mem_cons_of_mem y h)
      · intro z hz
        rcases List.mem_cons.mp hz with h | h
        · rw [h]
          exact hle
        · exact hall z h
    · rw [if_neg hv]
      obtain ⟨f, hf, hmem, hle, hall⟩ := ih b
      refine ⟨f, hf, ?_, hle, ?_⟩
      · rcases hmem with h | h
        · exact Or.inl h
        · exact Or.inr (List.mem_cons_of_mem y h)
      · intro z hz
        rcases List.mem_cons.mp hz with h | h
        · rw [h]
          exact le_trans (Nat.le_of_not_lt hv) hle
        · exact hall z h

lemma pythonMax_spec (val : Nat → Nat) (l : List Nat) (hl : l ≠ []) :
    ∃ f, pythonMax l val = some f ∧ f ∈ l ∧ ∀ y ∈ l, val y ≤ val f := by
  cases l with
  | nil => exact absurd rfl hl
  | cons y rest =>
    unfold pythonMax
    rw [List.foldl_cons]
    obtain ⟨f, hf, hmem, hle, hall⟩ := pythonMax_go val rest y
    refine ⟨f, hf, ?_, ?_⟩
    · rcases hmem with h | h
      · exact h ▸ List.mem_cons_self y rest
      · exact List.mem_cons_of_mem y h
    · intro z hz
      rcases List.mem_cons.mp hz with h | h
      · rw [h]
        exact hle
      · exact hall z h

/-! Claim theorems. -/

/-- C1: for every binary secret of length 1 to 12 the ideal outcome
distribution of the assembled circuit places probability one on the secret's
data index and zero on every other data outcome; the secret index formats
back to the secret string; and any outcome that is ever sampled — so in
particular the single outcome of a `shots = 1` run, for any stream of uniform
draws in `[0, 1)` — formats to the secret string. -/
theorem C1_exact_recovery (s : List Char)
    (hval : validate_binary_string s = true) (_hlen : s.length ≤ 12) :
    outcomeProb (runCircuit (bernstein_vazirani_circuit s)) s.length (secretIndex s) = 1 ∧
    (∀ y, y < 2 ^ s.length → y ≠ secretIndex s →
      outcomeProb (runCircuit (bernstein_vazirani_circuit s)) s.length y = 0) ∧
    outcomeString s.length (secretIndex s) = s ∧
    (∀ shots (seed : Nat → ℚ), (∀ t, 0 ≤ seed t ∧ seed t < 1) → ∀ y,
      sampleCounts (runCircuit (bernstein_vazirani_circuit s)) s.length shots seed y ≠ 0 →
      outcomeString s.length y = s) := by
  obtain ⟨hp1, hp0⟩ := finalProb s
  obtain ⟨-, hchars⟩ := (validate_iff s).mp hval
  have hstr := outcomeString_secretIndex s hchars
  refine ⟨hp1, hp0, hstr, ?_⟩
  intro shots seed hseed y hy
  have hne : ((Finset.range shots).filter
      (fun t => drawOutcome (runCircuit (bernstein_vazirani_circuit s)) s.length (seed t)
        = y)).card ≠ 0 := hy
  obtain ⟨t, ht⟩ := Finset.card_ne_zero.mp hne
  obtain ⟨-, htd⟩ := Finset.mem_filter.mp ht
  rw [← htd, finalDraw s (seed t) (hseed t).1 (hseed t).2]
  exact hstr

/-- C1 witness at the concrete secret "1". -/
theorem C1_exact_recovery_witness :
    outcomeProb (runCircuit (bernstein_vazirani_circuit ['1']))
      (List.length ['1']) (secretIndex ['1']) = 1 :=
  (C1_exact_recovery ['1'] (by decide) (by decide)).1

/-- C2: the Oracle Builder emits exactly one ControlledNot gate, with control
`i` and target `n`, for each position `i` (indexed from the last character of
the secret) holding '1', and nothing else; an all-zeros secret yields the
empty list, and "101" yields exactly the gates `cx 0 3` and `cx 2 3`. -/
theorem C2_oracle_gates :
    (∀ (s : List Char) (g : Gate), g ∈ create_oracle s ↔
        ∃ i, i < s.length ∧ s.reverse.getD i '0' = '1' ∧ g = Gate.cnot i s.length) ∧
    (∀ s : List Char, (create_oracle s).Nodup) ∧
    (∀ s : List Char, (∀ c ∈ s, c = '0') → create_oracle s = []) ∧
    create_oracle ['0', '0', '0'] = [] ∧
    create_oracle ['1', '0', '1'] = [Gate.cnot 0 3, Gate.cnot 2 3] := by
  refine ⟨mem_create_oracle, nodup_create_oracle, ?_, by decide, by decide⟩
  intro s hz
  rw [List.eq_nil_iff_forall_not_mem]
  intro g hg
  obtain ⟨i, hi, hget, -⟩ := (mem_create_oracle s g).mp hg
  have hil : i < s.reverse.length := by
    rw [List.length_reverse]
    exact hi
  rw [List.getD_eq_getElem s.reverse '0' hil] at hget
  have hmem : s.reverse[i] ∈ s := List.mem_reverse.mp (List.getElem_mem hil)
  rw [hz _ hmem] at hget
  exact absurd hget (by decide)

/-- C2 witness: the gate `cx 0 3` is in the oracle of "101". -/
theorem C2_oracle_gates_witness : Gate.cnot 0 3 ∈ create_oracle ['1', '0', '1'] :=
  (C2_oracle_gates.1 ['1', '0', '1'] (Gate.cnot 0 3)).mpr ⟨0, by decide, by decide, rfl⟩

/-- C3: the assembled circuit has `n + 1` qubits and `n` classical bits; its
instruction list is the auxiliary `X` and `H`, the data Hadamards, the oracle
and the second data Hadamard layer in that order (with two inert barrier
markers around the oracle, which the barrier-free executable view drops); and
exactly the data qubits `0..n-1` are measured — the auxiliary qubit never
is. -/
theorem C3_circuit_structure (s : List Char) :
    (bernstein_vazirani_circuit s).numQubits = s.length + 1 ∧
    (bernstein_vazirani_circuit s).numClbits = s.length ∧
    (bernstein_vazirani_circuit s).gates
      = [Gate.pauliX s.length, Gate.hadamard s.length]
        ++ (List.range s.length).map Gate.hadamard
        ++ [Gate.barrier] ++ create_oracle s ++ [Gate.barrier]
        ++ (List.range s.length).map Gate.hadamard ∧
    removeBarriers (bernstein_vazirani_circuit s).gates
      = [Gate.pauliX s.length, Gate.hadamard s.length]
        ++ (List.range s.length).map Gate.hadamard
        ++ create_oracle s
        ++ (List.range s.length).map Gate.hadamard ∧
    (bernstein_vazirani_circuit s).measured = List.range s.length ∧
    s.length ∉ (bernstein_vazirani_circuit s).measured := by
  refine ⟨rfl, rfl, rfl, removeBarriers_bv s, rfl, ?_⟩
  show s.length ∉ List.range s.length
  simp

/-- C4: for any valid secret and positive shot count the sampled counts over
the `2^n` possible data outcomes sum to exactly the requested shot count. -/
theorem C4_count_conservation (s : List Char) (_hval : validate_binary_string s = true)
    (shots : Nat) (_hshots : 1 ≤ shots) (seed : Nat → ℚ) :
    ∑ y ∈ Finset.range (2 ^ s.length),
      simulate_circuit (bernstein_vazirani_circuit s) shots seed y = shots :=
  sampleCounts_sum (runCircuit (bernstein_vazirani_circuit s)) s.length shots seed

/-- C4 witness at secret "1" with 1024 shots. -/
theorem C4_count_conservation_witness :
    ∑ y ∈ Finset.range (2 ^ List.length ['1']),
      simulate_circuit (bernstein_vazirani_circuit ['1']) 1024 (fun _ => 0) y = 1024 :=
  C4_count_conservation ['1'] (by decide) 1024 (by decide) (fun _ => 0)

/-- C5 counterexample: invoking the core with the empty secret is not
rejected — `run_bernstein_vazirani` has no validation branch and proceeds to
build and simulate the circuit, returning a result. -/
theorem C5_rejection_counterexample :
    (run_bernstein_vazirani [] 1024 (fun _ => 0)).isOk = true := rfl

/-- C5 amended: `validate_binary_string` does reject the empty string and
accepts "101", but it is invoked only by the interactive menu layer;
`run_bernstein_vazirani` itself validates nothing, so both the empty-secret
call and the `shots = 0` call are simulated rather than rejected. -/
theorem C5_rejection_amended :
    validate_binary_string [] = false ∧
    validate_binary_string ['1', '0', '1'] = true ∧
    (run_bernstein_vazirani [] 1024 (fun _ => 0)).isOk = true ∧
    (run_bernstein_vazirani ['1', '0', '1'] 0 (fun _ => 0)).isOk = true :=
  ⟨rfl, by decide, rfl, rfl⟩

/-- C6: the simulation is a pure function of secret, shot count and random
seed stream — two invocations with equal seed streams give identical
counts. -/
theorem C6_determinism (s : List Char) (shots : Nat) (seed₁ seed₂ : Nat → ℚ)
    (hseed : ∀ t, seed₁ t = seed₂ t) :
    ∀ y, simulate_circuit (bernstein_vazirani_circuit s) shots seed₁ y
        = simulate_circuit (bernstein_vazirani_circuit s) shots seed₂ y := by
  have h : seed₁ = seed₂ := funext hseed
  rw [h]
  intro y
  rfl

/-- C6 witness with two syntactically different but equal seed streams. -/
theorem C6_determinism_witness :
    simulate_circuit (bernstein_vazirani_circuit ['1']) 2 (fun _ => 0) 1
      = simulate_circuit (bernstein_vazirani_circuit ['1']) 2 (fun t => 0 * (t : ℚ)) 1 :=
  C6_determinism ['1'] 2 (fun _ => 0) (fun t => 0 * (t : ℚ)) (fun t => by simp) 1

/-- C7: after any gate-list position of the assembled circuit the probability
mass — the sum of squared amplitudes divided by the scale normalization —
equals one, because every gate of the set is norm-preserving. -/
theorem C7_normalization (s : List Char) (pre post : List Gate)
    (hsplit : (bernstein_vazirani_circuit s).gates = pre ++ post) :
    (normSq (applyGates pre initState) (s.length + 1) : ℚ)
      / 2 ^ (applyGates pre initState).scale = 1 := by
  have hok : ∀ g ∈ pre, gateOk (s.length + 1) g := by
    intro g hg
    exact bv_gateOk s g (by rw [hsplit]; exact List.mem_append.mpr (Or.inl hg))
  have h := normSq_applyGates_inv (s.length + 1) pre hok initState
    (by rw [normSq_initState]; rfl)
  rw [h]
  push_cast
  exact div_self (by positivity)

/-- C7 witness: the full circuit of secret "1". -/
theorem C7_normalization_witness :
    (normSq (applyGates (bernstein_vazirani_circuit ['1']).gates initState)
        (List.length ['1'] + 1) : ℚ)
      / 2 ^ (applyGates (bernstein_vazirani_circuit ['1']).gates initState).scale = 1 :=
  C7_normalization ['1'] (bernstein_vazirani_circuit ['1']).gates []
    (by rw [List.append_nil])

/-- C8: with a valid secret and at least one shot the core returns a record
whose `found_string` is an observed outcome of maximal count. -/
theorem C8_found_string_argmax (s : List Char) (_hval : validate_binary_string s = true)
    (shots : Nat) (hshots : 1 ≤ shots) (seed : Nat → ℚ) :
    ∃ res f, run_bernstein_vazirani s shots seed = Except.ok res ∧
      res.found? = some f ∧ 0 < res.counts f ∧
      ∀ y, res.counts y ≤ res.counts f := by
  have hsum : ∑ y ∈ Finset.range (2 ^ s.length),
      simulate_circuit (bernstein_vazirani_circuit s) shots seed y = shots :=
    sampleCounts_sum (runCircuit (bernstein_vazirani_circuit s)) s.length shots seed
  have hex : ∃ y ∈ Finset.range (2 ^ s.length),
      simulate_circuit (bernstein_vazirani_circuit s) shots seed y ≠ 0 :=
    Finset.exists_ne_zero_of_sum_ne_zero (by rw [hsum]; omega)
  obtain ⟨y0, hy0r, hy0⟩ := hex
  have hy0k : y0 ∈ (List.range (2 ^ s.length)).filter
      (fun y => decide (0 < simulate_circuit (bernstein_vazirani_circuit s) shots seed y)) := by
    rw [List.mem_filter]
    refine ⟨List.mem_range.mpr (Finset.mem_range.mp hy0r), ?_⟩
    rw [decide_eq_true_eq]
    omega
  have hkne : (List.range (2 ^ s.length)).filter
      (fun y => decide (0 < simulate_circuit (bernstein_vazirani_circuit s) shots seed y))
      ≠ [] := List.ne_nil_of_mem hy0k
  obtain ⟨f, hfmax, hfmem, hfall⟩ := pythonMax_spec
    (simulate_circuit (bernstein_vazirani_circuit s) shots seed) _ hkne
  refine ⟨⟨simulate_circuit (bernstein_vazirani_circuit s) shots seed,
    pythonMax ((List.range (2 ^ s.length)).filter
      (fun y => decide (0 < simulate_circuit (bernstein_vazirani_circuit s) shots seed y)))
      (simulate_circuit (bernstein_vazirani_circuit s) shots seed)⟩, f, rfl, hfmax, ?_, ?_⟩
  · have h2 := (List.mem_filter.mp hfmem).2
    rw [decide_eq_true_eq] at h2
    exact h2
  · intro y
    by_cases hyk : y ∈ (List.range (2 ^ s.length)).filter
        (fun y => decide (0 < simulate_circuit (bernstein_vazirani_circuit s) shots seed y))
    · exact hfall y hyk
    · have hzero : simulate_circuit (bernstein_vazirani_circuit s) shots seed y = 0 := by
        by_cases hyr : y < 2 ^ s.length
        · by_contra hne
          apply hyk
          rw [List.mem_filter]
          refine ⟨List.mem_range.mpr hyr, ?_⟩
          rw [decide_eq_true_eq]
          omega
        · exact sampleCounts_eq_zero_of_ge (runCircuit (bernstein_vazirani_circuit s))
            s.length shots seed y (by omega)
      show simulate_circuit (bernstein_vazirani_circuit s) shots seed y
          ≤ simulate_circuit (bernstein_vazirani_circuit s) shots seed f
      rw [hzero]
      exact Nat.zero_le _

/-- C8 witness at secret "1" with one shot. -/
theorem C8_found_string_argmax_witness :
    ∃ res f, run_bernstein_vazirani ['1'] 1 (fun _ => 0) = Except.ok res ∧
      res.found? = some f ∧ 0 < res.counts f ∧
      ∀ y, res.counts y ≤ res.counts f :=
  C8_found_string_argmax ['1'] (by decide) 1 (by decide) (fun _ => 0)

/-- C9: the barrier markers have no semantic effect — the barrier-free
executable representation of the circuit produces the same outcome
distribution and the same sampled counts as the representation with
barriers, for every secret, shot count and seed. -/
theorem C9_barriers_cosmetic (s : List Char) :
    (∀ y, outcomeProb (applyGates (removeBarriers (bernstein_vazirani_circuit s).gates)
            initState) s.length y
        = outcomeProb (runCircuit (bernstein_vazirani_circuit s)) s.length y) ∧
    (∀ shots seed y,
      sampleCounts (applyGates (removeBarriers (bernstein_vazirani_circuit s).gates)
          initState) s.length shots seed y
        = simulate_circuit (bernstein_vazirani_circuit s) shots seed y) := by
  rw [applyGates_removeBarriers]
  exact ⟨fun y => rfl, fun shots seed y => rfl⟩

/-- C10: the validator accepts exactly the non-empty strings of '0' and '1'
characters; in particular it rejects the empty string. -/
theorem C10_validator (s : List Char) :
    (validate_binary_string s = true ↔ (s ≠ [] ∧ ∀ c ∈ s, c = '0' ∨ c = '1')) ∧
    validate_binary_string [] = false :=
  ⟨validate_iff s, rfl⟩

end VB
